import Mathlib

/-!
Shallow embedding of the finite-field and elliptic-curve core of the
repository: `src/math/field_element.rs` (struct `FieldElement`, its
constructor `new`, `pow`, `div`, `div_field`, and the `Add`/`Sub`/`Mul`
operator impls) and `src/math/ecc/mod.rs` (struct `FieldPoint`, its
constructors `new`/`new_inf`, and the `Add` impl implementing the
chord-and-tangent group law).

Modelling conventions:
* Rust `BigInt` is Lean `Int`.
* A Rust panic (failed `unwrap`, `BigInt::modpow` with a negative
  exponent, mismatched-prime operator panic) is `Option.none`; a normal
  return of `v` is `some v`.
* `Result<T, E>` is `Except E T`.
* `num_integer::Integer::mod_floor` with a positive modulus agrees with
  the `Int.emod` operator (`%`), which is what every reachable call here
  uses: all moduli involved are the `prime` of a field element, positive
  in every claim.
-/

/-- Model of `num_bigint::BigInt::modpow`: fast modular exponentiation.
It panics (here: `none`) when the exponent is negative or the modulus is
not positive — the source comment at `field_element.rs:18` itself records
"modpow does not let us have negative exponent". Otherwise it returns
`base ^ exp` reduced into `[0, m)`. -/
def modpow (b e m : Int) : Option Int :=
  if e < 0 ∨ m ≤ 0 then none else some (b ^ e.toNat % m)

/-- `FieldElement` from `field_element.rs`: a number together with the
modulus of its field. -/
structure FieldElement where
  num : Int
  prime : Int
deriving DecidableEq

/-- `ErrorKind` from `field_element.rs` (the payload of `Error::Regular`). -/
inductive ErrorKind where
  | OutOfRange
deriving DecidableEq

deriving instance DecidableEq for Except

/-- Rust `Result::unwrap`: the value on `Ok`, a panic (`none`) on `Err`. -/
def exUnwrap {ε α : Type} : Except ε α → Option α
  | .ok a => some a
  | .error _ => none

/-- `FieldElement::new` (`field_element.rs:97`): rejects `num >= prime`
with `OutOfRange`, otherwise stores both inputs unchanged. -/
def FieldElement.new (num prime : Int) : Except ErrorKind FieldElement :=
  if num ≥ prime then .error .OutOfRange else .ok ⟨num, prime⟩

/-- `FieldElement::pow` (`field_element.rs:14`): a negative exponent gets
`prime - 1` added to it once, then `modpow` runs and the result is
rewrapped via `new(...).unwrap()`. -/
def FieldElement.pow (x : FieldElement) (exp : Int) : Option FieldElement :=
  (modpow x.num (if exp < 0 then exp + (x.prime - 1) else exp) x.prime).bind
    fun r => exUnwrap (FieldElement.new r x.prime)

/-- `FieldElement::div` (`field_element.rs:28`): divides by a raw integer
via `divisor ^ (prime - 2)` (Fermat inverse), then reduces. -/
def FieldElement.div (x : FieldElement) (divisor : Int) : Option FieldElement :=
  (modpow divisor (x.prime - 2) x.prime).bind fun dinv =>
    exUnwrap (FieldElement.new (x.num * dinv % x.prime) x.prime)

/-- `FieldElement::div_field` (`field_element.rs:39`): same as `div` but
the divisor is another `FieldElement`, whose `num` is used. -/
def FieldElement.div_field (x divisor : FieldElement) : Option FieldElement :=
  (modpow divisor.num (x.prime - 2) x.prime).bind fun dinv =>
    exUnwrap (FieldElement.new (x.num * dinv % x.prime) x.prime)

/-- `impl Add<&FieldElement> for &FieldElement` (`field_element.rs:149`):
panics on mismatched primes, else reduces the integer sum. -/
def FieldElement.add (a b : FieldElement) : Option FieldElement :=
  if a.prime ≠ b.prime then none
  else exUnwrap (FieldElement.new ((a.num + b.num) % a.prime) a.prime)

/-- `impl Sub<&FieldElement> for &FieldElement` (`field_element.rs:171`). -/
def FieldElement.sub (a b : FieldElement) : Option FieldElement :=
  if a.prime ≠ b.prime then none
  else exUnwrap (FieldElement.new ((a.num - b.num) % a.prime) a.prime)

/-- `impl Mul<&FieldElement> for &FieldElement` (`field_element.rs:201`). -/
def FieldElement.mul (a b : FieldElement) : Option FieldElement :=
  if a.prime ≠ b.prime then none
  else exUnwrap (FieldElement.new (a.num * b.num % a.prime) a.prime)

/-- `impl Mul<&BigInt> for &FieldElement` (`field_element.rs:192`): wraps
the integer through `FieldElement::new(o, prime).unwrap()` and multiplies. -/
def FieldElement.mulInt (x : FieldElement) (o : Int) : Option FieldElement :=
  (exUnwrap (FieldElement.new o x.prime)).bind fun f => FieldElement.mul x f

/-- `FieldPoint` from `ecc/mod.rs`: coordinates, curve parameters and the
infinity marker.  The derived Rust `PartialEq`/`Eq` compares every field,
which structure equality here matches. -/
structure FieldPoint where
  x : FieldElement
  y : FieldElement
  a : FieldElement
  b : FieldElement
  inf : Bool
deriving DecidableEq

/-- `FieldPoint::new` (`ecc/mod.rs:16`): checks the curve equation
`y^2 == x^3 + a*x + b` (each operation a `FieldElement` operation that may
panic) and returns `Err` (here `Except.error ()`, the source formats a
`String`) when it fails. -/
def FieldPoint.new (x y a b : FieldElement) : Option (Except Unit FieldPoint) :=
  (y.pow 2).bind fun lhs =>
  (x.pow 3).bind fun xc =>
  (FieldElement.mul a x).bind fun ax =>
  (FieldElement.add xc ax).bind fun t =>
  (FieldElement.add t b).bind fun rhs =>
  some (if lhs ≠ rhs then .error () else .ok ⟨x, y, a, b, false⟩)

/-- `FieldPoint::new_inf` (`ecc/mod.rs:32`): always `Ok`, with placeholder
coordinates `FieldElement::new(0,1).unwrap()` and the `inf` flag set. -/
def FieldPoint.new_inf (a b : FieldElement) : Except Unit FieldPoint :=
  .ok ⟨⟨0, 1⟩, ⟨0, 1⟩, a, b, true⟩

/-- The distinct-x branch of `FieldPoint::add` (`ecc/mod.rs:60-64`):
chord slope `(other.y - self.y) / (other.x - self.x)`, then
`x3 = slope^2 - self.x - other.x`, `y3 = slope*(self.x - x3) - self.y`,
and the result is revalidated through `FieldPoint::new(...).unwrap()`. -/
def FieldPoint.chord (self other : FieldPoint) : Option FieldPoint :=
  (FieldElement.sub other.y self.y).bind fun dy =>
  (FieldElement.sub other.x self.x).bind fun dx =>
  (dy.div_field dx).bind fun slope =>
  (slope.pow 2).bind fun s2 =>
  (FieldElement.sub s2 self.x).bind fun t =>
  (FieldElement.sub t other.x).bind fun x3 =>
  (FieldElement.sub self.x x3).bind fun d =>
  (FieldElement.mul slope d).bind fun sd =>
  (FieldElement.sub sd self.y).bind fun y3 =>
  (FieldPoint.new x3 y3 self.a self.b).bind exUnwrap

/-- The doubling branch of `FieldPoint::add` (`ecc/mod.rs:67-74`):
tangent slope `(3*self.x^2 + a) / (2*self.y)`, then
`x3 = slope^2 - 2*self.x`, `y3 = slope*(self.x - x3) - self.y`, result
revalidated through `FieldPoint::new(...).unwrap()`.  The `println!` on
the way is a side effect with no bearing on the returned value. -/
def FieldPoint.double (self : FieldPoint) : Option FieldPoint :=
  (self.x.pow 2).bind fun xsq =>
  (xsq.mulInt 3).bind fun t1 =>
  (FieldElement.add t1 self.a).bind fun numr =>
  (self.y.mulInt 2).bind fun den =>
  (numr.div_field den).bind fun slope =>
  (slope.pow 2).bind fun s2 =>
  (self.x.mulInt 2).bind fun tx =>
  (FieldElement.sub s2 tx).bind fun x3 =>
  (FieldElement.sub self.x x3).bind fun d =>
  (FieldElement.mul slope d).bind fun sd =>
  (FieldElement.sub sd self.y).bind fun y3 =>
  (FieldPoint.new x3 y3 self.a self.b).bind exUnwrap

/-- `impl Add<&FieldPoint> for FieldPoint` (`ecc/mod.rs:43-75`): panic on
mismatched curve parameters, identity cases for either infinity operand,
chord rule for distinct x, infinity when `self.y.num == 0`, doubling
otherwise. -/
def FieldPoint.add (self other : FieldPoint) : Option FieldPoint :=
  if self.a ≠ other.a ∨ self.b ≠ other.b then none
  else if self.inf then some other
  else if other.inf then some self
  else if self.x ≠ other.x then FieldPoint.chord self other
  else if self.y.num = 0 then exUnwrap (FieldPoint.new_inf self.a self.b)
  else FieldPoint.double self

/-- The canonical-representative property of §8 of the spec, stated over
the optional (panic-aware) result of an operation: the operation returns
normally and its `num` lies in `[0, p)`. -/
def canonicalRange (p : Int) : Option FieldElement → Prop
  | none => False
  | some r => 0 ≤ r.num ∧ r.num < p

/-- The curve-equation invariant of §3 of the spec for a finite point,
in the shared field with modulus `p`: `y² ≡ x³ + a·x + b (mod p)`. -/
def onCurve (pt : FieldPoint) (p : Int) : Prop :=
  pt.y.num ^ 2 % p = (pt.x.num ^ 3 + pt.a.num * pt.x.num + pt.b.num) % p

/-- All four stored field elements of a point live in the field with
modulus `p`. -/
def sharesPrime (pt : FieldPoint) (p : Int) : Prop :=
  pt.x.prime = p ∧ pt.y.prime = p ∧ pt.a.prime = p ∧ pt.b.prime = p

/-- A curve point in the sense of the spec: the infinity marker is set,
or the point is finite, lives over `p`, and satisfies the curve
equation. -/
def validPoint (pt : FieldPoint) (p : Int) : Prop :=
  pt.inf = true ∨ (sharesPrime pt p ∧ onCurve pt p)

/-- Every normally returned point (if any) is finite: the `inf` flag of
a `some` result is clear. -/
def finiteResult : Option FieldPoint → Prop
  | none => True
  | some r => r.inf = false

-- Sanity checks against the source tests (field_element.rs / ecc/mod.rs).
example : FieldElement.add ⟨3, 5⟩ ⟨3, 5⟩ = some ⟨1, 5⟩ := by decide
example : FieldElement.sub ⟨1, 7⟩ ⟨5, 7⟩ = some ⟨3, 7⟩ := by decide
example : FieldElement.div ⟨1, 7⟩ 3 = some ⟨5, 7⟩ := by decide
example : FieldElement.pow ⟨3, 7⟩ 2 = some ⟨2, 7⟩ := by decide
example : ∃ e, FieldPoint.new ⟨1, 7⟩ ⟨2, 7⟩ ⟨3, 7⟩ ⟨4, 7⟩ = some (.error e) := by
  exact ⟨(), by decide⟩
example :
    FieldPoint.new ⟨192, 223⟩ ⟨105, 223⟩ ⟨0, 223⟩ ⟨7, 223⟩ =
      some (.ok ⟨⟨192, 223⟩, ⟨105, 223⟩, ⟨0, 223⟩, ⟨7, 223⟩, false⟩) := by decide
example :
    FieldPoint.add ⟨⟨0, 1⟩, ⟨0, 1⟩, ⟨0, 223⟩, ⟨7, 223⟩, true⟩
      ⟨⟨192, 223⟩, ⟨105, 223⟩, ⟨0, 223⟩, ⟨7, 223⟩, false⟩ =
    some ⟨⟨192, 223⟩, ⟨105, 223⟩, ⟨0, 223⟩, ⟨7, 223⟩, false⟩ := by decide

/-! ### Evaluation and inversion lemmas for the field operations -/

theorem exUnwrap_new_some {n p : Int} (h : n < p) :
    exUnwrap (FieldElement.new n p) = some ⟨n, p⟩ := by
  unfold FieldElement.new
  rw [if_neg (not_le.2 h)]
  rfl

theorem exUnwrap_new_eq_some {n p : Int} {c : FieldElement}
    (h : exUnwrap (FieldElement.new n p) = some c) : c = ⟨n, p⟩ ∧ n < p := by
  unfold FieldElement.new at h
  by_cases hn : n ≥ p
  · rw [if_pos hn] at h
    cases h
  · rw [if_neg hn] at h
    simp only [exUnwrap, Option.some.injEq] at h
    exact ⟨h.symm, lt_of_not_ge hn⟩

theorem add_eq (a b : FieldElement) (hpr : b.prime = a.prime) (hp : 0 < a.prime) :
    FieldElement.add a b = some ⟨(a.num + b.num) % a.prime, a.prime⟩ := by
  unfold FieldElement.add
  rw [if_neg (not_ne_iff.2 hpr.symm)]
  exact exUnwrap_new_some (Int.emod_lt_of_pos _ hp)

theorem sub_eq (a b : FieldElement) (hpr : b.prime = a.prime) (hp : 0 < a.prime) :
    FieldElement.sub a b = some ⟨(a.num - b.num) % a.prime, a.prime⟩ := by
  unfold FieldElement.sub
  rw [if_neg (not_ne_iff.2 hpr.symm)]
  exact exUnwrap_new_some (Int.emod_lt_of_pos _ hp)

theorem mul_eq (a b : FieldElement) (hpr : b.prime = a.prime) (hp : 0 < a.prime) :
    FieldElement.mul a b = some ⟨a.num * b.num % a.prime, a.prime⟩ := by
  unfold FieldElement.mul
  rw [if_neg (not_ne_iff.2 hpr.symm)]
  exact exUnwrap_new_some (Int.emod_lt_of_pos _ hp)

theorem pow_eq (x : FieldElement) (e : Int) (he : 0 ≤ e) (hp : 0 < x.prime) :
    x.pow e = some ⟨x.num ^ e.toNat % x.prime, x.prime⟩ := by
  unfold FieldElement.pow modpow
  rw [if_neg (not_lt.2 he), if_neg (by push_neg; exact ⟨he, hp⟩)]
  exact exUnwrap_new_some (Int.emod_lt_of_pos _ hp)

theorem div_field_eq (x d : FieldElement) (hp : 2 ≤ x.prime) :
    x.div_field d =
      some ⟨x.num * (d.num ^ (x.prime - 2).toNat % x.prime) % x.prime, x.prime⟩ := by
  unfold FieldElement.div_field modpow
  rw [if_neg (by push_neg; omega)]
  exact exUnwrap_new_some (Int.emod_lt_of_pos _ (by omega))

theorem mulInt_eq (x : FieldElement) (o : Int) (ho : o < x.prime) (hp : 0 < x.prime) :
    x.mulInt o = some ⟨x.num * o % x.prime, x.prime⟩ := by
  unfold FieldElement.mulInt
  rw [exUnwrap_new_some ho]
  exact mul_eq x ⟨o, x.prime⟩ rfl hp

theorem add_some {a b c : FieldElement} (h : FieldElement.add a b = some c) :
    b.prime = a.prime ∧ c = ⟨(a.num + b.num) % a.prime, a.prime⟩ := by
  unfold FieldElement.add at h
  by_cases hpr : a.prime ≠ b.prime
  · rw [if_pos hpr] at h
    cases h
  · rw [if_neg hpr] at h
    exact ⟨(not_ne_iff.mp hpr).symm, (exUnwrap_new_eq_some h).1⟩

theorem sub_some {a b c : FieldElement} (h : FieldElement.sub a b = some c) :
    b.prime = a.prime ∧ c = ⟨(a.num - b.num) % a.prime, a.prime⟩ := by
  unfold FieldElement.sub at h
  by_cases hpr : a.prime ≠ b.prime
  · rw [if_pos hpr] at h
    cases h
  · rw [if_neg hpr] at h
    exact ⟨(not_ne_iff.mp hpr).symm, (exUnwrap_new_eq_some h).1⟩

theorem mul_some {a b c : FieldElement} (h : FieldElement.mul a b = some c) :
    b.prime = a.prime ∧ c = ⟨a.num * b.num % a.prime, a.prime⟩ := by
  unfold FieldElement.mul at h
  by_cases hpr : a.prime ≠ b.prime
  · rw [if_pos hpr] at h
    cases h
  · rw [if_neg hpr] at h
    exact ⟨(not_ne_iff.mp hpr).symm, (exUnwrap_new_eq_some h).1⟩

theorem pow_some_of_nonneg {x : FieldElement} {e : Int} (he : 0 ≤ e) {c : FieldElement}
    (h : x.pow e = some c) :
    0 < x.prime ∧ c = ⟨x.num ^ e.toNat % x.prime, x.prime⟩ := by
  unfold FieldElement.pow modpow at h
  rw [if_neg (not_lt.2 he)] at h
  by_cases hm : e < 0 ∨ x.prime ≤ 0
  · rw [if_pos hm] at h
    cases h
  · rw [if_neg hm] at h
    push_neg at hm
    exact ⟨hm.2, (exUnwrap_new_eq_some h).1⟩

theorem div_field_some {x d c : FieldElement} (h : x.div_field d = some c) :
    2 ≤ x.prime ∧
      c = ⟨x.num * (d.num ^ (x.prime - 2).toNat % x.prime) % x.prime, x.prime⟩ := by
  unfold FieldElement.div_field modpow at h
  by_cases hm : x.prime - 2 < 0 ∨ x.prime ≤ 0
  · rw [if_pos hm] at h
    cases h
  · rw [if_neg hm] at h
    push_neg at hm
    exact ⟨by omega, (exUnwrap_new_eq_some h).1⟩

theorem mulInt_some {x : FieldElement} {o : Int} {c : FieldElement}
    (h : x.mulInt o = some c) : o < x.prime ∧ c = ⟨x.num * o % x.prime, x.prime⟩ := by
  unfold FieldElement.mulInt at h
  rw [Option.bind_eq_some] at h
  obtain ⟨f, hf, hmul⟩ := h
  obtain ⟨hfe, hlt⟩ := exUnwrap_new_eq_some hf
  subst hfe
  obtain ⟨-, hc⟩ := mul_some hmul
  exact ⟨hlt, hc⟩

theorem addmod3 (A B C p : Int) :
    ((A % p + B % p) % p + C) % p = (A + B + C) % p := by
  have hA : A % p ≡ A [ZMOD p] := Int.emod_emod_of_dvd A dvd_rfl
  have hB : B % p ≡ B [ZMOD p] := Int.emod_emod_of_dvd B dvd_rfl
  have hS : (A % p + B % p) % p ≡ A + B [ZMOD p] :=
    (Int.emod_emod_of_dvd _ dvd_rfl).trans (hA.add hB)
  exact hS.add_right C

/-! ### Claim C1 — negative exponents in `pow` -/

/-- **C1** (code bug): the claim — and the spec sentence it formalises —
says `pow` adds `prime - 1` to a negative exponent as many times as
needed and therefore returns a value for every negative exponent.  The
code at `field_element.rs:21-23` adds `prime - 1` exactly once, so for
`FieldElement(2, 5)` and exponent `-9` the exponent handed to `modpow`
is `-5`, still negative, and `modpow` panics.  For `-1` (one addition
suffices) the Fermat-rewritten value `2^3 mod 5 = 3` does come back. -/
theorem pow_single_fermat_step_panics_on_large_negative_exponent :
    FieldElement.pow ⟨2, 5⟩ (-9) = none ∧
      FieldElement.pow ⟨2, 5⟩ (-1) = some ⟨3, 5⟩ := by decide

/-! ### Claim C2 — division by the zero element -/

/-- **C2** (code bug): the claim says division by the zero element is
rejected explicitly.  Neither `div_field` (`field_element.rs:39`) nor
`div` (`field_element.rs:28`) contains any zero check: both run
`0 ^ (prime - 2) mod prime = 0` through `modpow` and silently hand back
the zero element, here at `a = FieldElement(3, 7)`. -/
theorem div_by_zero_silently_returns_zero :
    FieldElement.div_field ⟨3, 7⟩ ⟨0, 7⟩ = some ⟨0, 7⟩ ∧
      FieldElement.div ⟨3, 7⟩ 0 = some ⟨0, 7⟩ := by decide

/-! ### Claim C3 — what `FieldElement::new` validates -/

/-- **C3** (counterexample): `new(-3, 7)` succeeds and stores `-3`
itself, which is not in `[0, 7)` — `new` never canonicalizes. -/
theorem new_stores_negative_num_unreduced :
    FieldElement.new (-3) 7 = .ok ⟨-3, 7⟩ ∧ ¬ (0 ≤ (-3 : Int)) := by decide

/-- **C3** (amended): `new(num, prime)` fails with `OutOfRange` exactly
when `num ≥ prime`, and on success stores both inputs unchanged — no
reduction into `[0, prime)` happens, so a negative `num` stays negative. -/
theorem new_rejects_iff_num_ge_prime_and_stores_inputs (num p : Int) :
    (p ≤ num → FieldElement.new num p = .error .OutOfRange) ∧
      (num < p → FieldElement.new num p = .ok ⟨num, p⟩) := by
  constructor
  · intro h
    unfold FieldElement.new
    rw [if_pos h]
  · intro h
    unfold FieldElement.new
    rw [if_neg (not_le.2 h)]

/-- **C3** (witness): the two sides of the amended claim at `(5, 3)` and
`(-3, 7)`. -/
theorem new_rejects_iff_num_ge_prime_and_stores_inputs_w :
    FieldElement.new 5 3 = .error .OutOfRange ∧
      FieldElement.new (-3) 7 = .ok ⟨-3, 7⟩ :=
  ⟨(new_rejects_iff_num_ge_prime_and_stores_inputs 5 3).1 (by decide),
   (new_rejects_iff_num_ge_prime_and_stores_inputs (-3) 7).2 (by decide)⟩

/-! ### Claim C9 — equality of curve points -/

/-- **C9** (counterexample): two infinity points on different curves
(`b = 7` versus `b = 6` over GF(223)) are not equal, because the derived
`PartialEq` at `ecc/mod.rs:5` compares `a` and `b` as well; the claim
says any two infinity points are equal. -/
theorem infinity_points_on_different_curves_differ :
    FieldPoint.new_inf ⟨0, 223⟩ ⟨7, 223⟩ =
        .ok ⟨⟨0, 1⟩, ⟨0, 1⟩, ⟨0, 223⟩, ⟨7, 223⟩, true⟩ ∧
      FieldPoint.new_inf ⟨0, 223⟩ ⟨6, 223⟩ =
        .ok ⟨⟨0, 1⟩, ⟨0, 1⟩, ⟨0, 223⟩, ⟨6, 223⟩, true⟩ ∧
      (⟨⟨0, 1⟩, ⟨0, 1⟩, ⟨0, 223⟩, ⟨7, 223⟩, true⟩ : FieldPoint) ≠
        ⟨⟨0, 1⟩, ⟨0, 1⟩, ⟨0, 223⟩, ⟨6, 223⟩, true⟩ := by decide

/-- **C9** (amended): equality of `FieldPoint`s is field-by-field —
`x`, `y`, `a`, `b` and the `inf` flag must all agree (so an infinity
point never equals a finite one); and since `new_inf` always installs
the same placeholder coordinates, two infinity points it builds are
equal exactly when their `a` and `b` agree. -/
theorem point_eq_iff_componentwise :
    (∀ P Q : FieldPoint, P = Q ↔
        P.x = Q.x ∧ P.y = Q.y ∧ P.a = Q.a ∧ P.b = Q.b ∧ P.inf = Q.inf) ∧
      (∀ a b a2 b2 : FieldElement,
        FieldPoint.new_inf a b = FieldPoint.new_inf a2 b2 ↔ a = a2 ∧ b = b2) := by
  constructor
  · intro P Q
    cases P
    cases Q
    simp [FieldPoint.mk.injEq]
  · intro a b a2 b2
    unfold FieldPoint.new_inf
    simp [FieldPoint.mk.injEq]

theorem optSomeBind {α β : Type} (a : α) (f : α → Option β) :
    (some a).bind f = f a := rfl

/-! ### Claim C7 — add/sub/mul return canonical representatives -/

/-- **C7**: for field elements `a`, `b` sharing a positive prime `p`, the
operator impls at `field_element.rs:149/171/201` reduce with `mod_floor`,
so addition, subtraction (also when the integer difference is negative)
and multiplication all return, and return a `num` in `[0, p)`. -/
theorem field_ops_return_canonical_representatives (p : Int) (hp : 0 < p)
    (a b : FieldElement) (ha : a.prime = p) (hb : b.prime = p) :
    canonicalRange p (FieldElement.add a b) ∧
      canonicalRange p (FieldElement.sub a b) ∧
      canonicalRange p (FieldElement.mul a b) := by
  have hba : b.prime = a.prime := hb.trans ha.symm
  have hap : 0 < a.prime := by rw [ha]; exact hp
  rw [add_eq a b hba hap, sub_eq a b hba hap, mul_eq a b hba hap]
  refine ⟨⟨Int.emod_nonneg _ (ne_of_gt hap), ?_⟩,
    ⟨Int.emod_nonneg _ (ne_of_gt hap), ?_⟩,
    ⟨Int.emod_nonneg _ (ne_of_gt hap), ?_⟩⟩ <;>
  · show _ % a.prime < p
    rw [← ha]
    exact Int.emod_lt_of_pos _ hap

/-- **C7** (witness): at `p = 7`, `a = 3`, `b = 5` — in particular the
subtraction `3 - 5` wraps to `5 ∈ [0, 7)`. -/
theorem field_ops_return_canonical_representatives_w :
    canonicalRange 7 (FieldElement.add ⟨3, 7⟩ ⟨5, 7⟩) ∧
      canonicalRange 7 (FieldElement.sub ⟨3, 7⟩ ⟨5, 7⟩) ∧
      canonicalRange 7 (FieldElement.mul ⟨3, 7⟩ ⟨5, 7⟩) :=
  field_ops_return_canonical_representatives 7 (by decide) ⟨3, 7⟩ ⟨5, 7⟩ rfl rfl

/-! ### Claim C5 — `FieldPoint::new` validates the curve equation -/

/-- **C5**: over a shared positive prime `p`, `FieldPoint::new`
(`ecc/mod.rs:16`) returns `Ok` exactly when
`y² ≡ x³ + a·x + b (mod p)` and `Err` exactly otherwise; concretely, on
the curve `a = 0, b = 7` over GF(223), `(192, 105)` is accepted and
`(200, 119)` is rejected. -/
theorem point_new_succeeds_iff_on_curve (p : Int) (hp : 0 < p)
    (x y a b : FieldElement) (hx : x.prime = p) (hy : y.prime = p)
    (ha : a.prime = p) (hb : b.prime = p) :
    (FieldPoint.new x y a b = some (.ok ⟨x, y, a, b, false⟩) ↔
        y.num ^ 2 % p = (x.num ^ 3 + a.num * x.num + b.num) % p) ∧
      (FieldPoint.new x y a b = some (.error ()) ↔
        y.num ^ 2 % p ≠ (x.num ^ 3 + a.num * x.num + b.num) % p) ∧
      FieldPoint.new ⟨192, 223⟩ ⟨105, 223⟩ ⟨0, 223⟩ ⟨7, 223⟩ =
        some (.ok ⟨⟨192, 223⟩, ⟨105, 223⟩, ⟨0, 223⟩, ⟨7, 223⟩, false⟩) ∧
      FieldPoint.new ⟨200, 223⟩ ⟨119, 223⟩ ⟨0, 223⟩ ⟨7, 223⟩ =
        some (.error ()) := by
  obtain ⟨xn, xp⟩ := x
  obtain ⟨yn, yp⟩ := y
  obtain ⟨an, ap⟩ := a
  obtain ⟨bn, bp⟩ := b
  have hx2 : p = xp := hx.symm
  have hy2 : p = yp := hy.symm
  have ha2 : p = ap := ha.symm
  have hb2 : p = bp := hb.symm
  subst hx2
  subst hy2
  subst ha2
  subst hb2
  refine ⟨?_, ?_, by decide, by decide⟩ <;>
  · unfold FieldPoint.new
    rw [pow_eq ⟨yn, p⟩ 2 (by norm_num) hp, optSomeBind,
      pow_eq ⟨xn, p⟩ 3 (by norm_num) hp, optSomeBind,
      mul_eq ⟨an, p⟩ ⟨xn, p⟩ rfl hp, optSomeBind]
    dsimp
    rw [add_eq ⟨xn ^ 3 % p, p⟩ ⟨an * xn % p, p⟩ rfl hp, optSomeBind,
      add_eq ⟨(xn ^ 3 % p + an * xn % p) % p, p⟩ ⟨bn, p⟩ rfl hp, optSomeBind]
    dsimp
    rw [addmod3]
    by_cases hE : yn ^ 2 % p = (xn ^ 3 + an * xn + bn) % p
    · rw [if_neg (by simp [hE])]
      simp [hE]
    · rw [if_pos (by simp [hE])]
      simp [hE]

/-- **C5** (witness): the general equivalence instantiated on the
reference curve point `(192, 105)` over GF(223). -/
theorem point_new_succeeds_iff_on_curve_w :
    (FieldPoint.new ⟨192, 223⟩ ⟨105, 223⟩ ⟨0, 223⟩ ⟨7, 223⟩ =
        some (.ok ⟨⟨192, 223⟩, ⟨105, 223⟩, ⟨0, 223⟩, ⟨7, 223⟩, false⟩) ↔
      (105 : Int) ^ 2 % 223 = ((192 : Int) ^ 3 + 0 * 192 + 7) % 223) ∧
    (FieldPoint.new ⟨192, 223⟩ ⟨105, 223⟩ ⟨0, 223⟩ ⟨7, 223⟩ =
        some (.error ()) ↔
      (105 : Int) ^ 2 % 223 ≠ ((192 : Int) ^ 3 + 0 * 192 + 7) % 223) ∧
    FieldPoint.new ⟨192, 223⟩ ⟨105, 223⟩ ⟨0, 223⟩ ⟨7, 223⟩ =
      some (.ok ⟨⟨192, 223⟩, ⟨105, 223⟩, ⟨0, 223⟩, ⟨7, 223⟩, false⟩) ∧
    FieldPoint.new ⟨200, 223⟩ ⟨119, 223⟩ ⟨0, 223⟩ ⟨7, 223⟩ =
      some (.error ()) :=
  point_new_succeeds_iff_on_curve 223 (by decide) ⟨192, 223⟩ ⟨105, 223⟩
    ⟨0, 223⟩ ⟨7, 223⟩ rfl rfl rfl rfl

theorem new_unwrap_shape {x y a b : FieldElement} {r : FieldPoint}
    (h : (FieldPoint.new x y a b).bind exUnwrap = some r) :
    r = ⟨x, y, a, b, false⟩ := by
  rw [Option.bind_eq_some] at h
  obtain ⟨res, hres, hun⟩ := h
  unfold FieldPoint.new at hres
  rw [Option.bind_eq_some] at hres
  obtain ⟨lhs, -, hres⟩ := hres
  rw [Option.bind_eq_some] at hres
  obtain ⟨xc, -, hres⟩ := hres
  rw [Option.bind_eq_some] at hres
  obtain ⟨ax, -, hres⟩ := hres
  rw [Option.bind_eq_some] at hres
  obtain ⟨t, -, hres⟩ := hres
  rw [Option.bind_eq_some] at hres
  obtain ⟨rhs, -, hres⟩ := hres
  rw [Option.some.injEq] at hres
  subst hres
  by_cases hne : lhs ≠ rhs
  · rw [if_pos hne] at hun
    cases hun
  · rw [if_neg hne] at hun
    rw [show exUnwrap (Except.ok (⟨x, y, a, b, false⟩ : FieldPoint)) =
        some ⟨x, y, a, b, false⟩ from rfl, Option.some.injEq] at hun
    exact hun.symm

/-! ### Claim C10 — vertical reflections with nonzero y take the doubling branch -/

/-- **C10**: for finite points on the same curve with the same `x`,
different `y`, and `P.y` not the zero representative, `add`
(`ecc/mod.rs:60-74`) never reaches the infinity case: the `x`-equality
test routes past the chord branch, the `self.y.num == 0` test fails, and
the tangent/doubling formula (slope `(3·P.x² + a) / (2·P.y)`) is applied
to `P`; any point that branch returns is finite, not infinity. -/
theorem add_vertical_reflection_takes_doubling_branch (P Q : FieldPoint)
    (hPf : P.inf = false) (hQf : Q.inf = false)
    (ha : P.a = Q.a) (hb : P.b = Q.b) (hx : P.x = Q.x)
    (_hy : P.y ≠ Q.y) (hy0 : P.y.num ≠ 0) :
    FieldPoint.add P Q = FieldPoint.double P ∧
      finiteResult (FieldPoint.double P) := by
  constructor
  · unfold FieldPoint.add
    rw [if_neg (by push_neg; exact ⟨ha, hb⟩), hPf, hQf,
      if_neg Bool.false_ne_true, if_neg Bool.false_ne_true, hx,
      if_neg (fun hne => hne rfl), if_neg hy0]
  · rcases hd : FieldPoint.double P with - | r
    · trivial
    · show r.inf = false
      have h := hd
      unfold FieldPoint.double at h
      rw [Option.bind_eq_some] at h
      obtain ⟨xsq, -, h⟩ := h
      rw [Option.bind_eq_some] at h
      obtain ⟨t1, -, h⟩ := h
      rw [Option.bind_eq_some] at h
      obtain ⟨numr, -, h⟩ := h
      rw [Option.bind_eq_some] at h
      obtain ⟨den, -, h⟩ := h
      rw [Option.bind_eq_some] at h
      obtain ⟨slope, -, h⟩ := h
      rw [Option.bind_eq_some] at h
      obtain ⟨s2, -, h⟩ := h
      rw [Option.bind_eq_some] at h
      obtain ⟨tx, -, h⟩ := h
      rw [Option.bind_eq_some] at h
      obtain ⟨x3, -, h⟩ := h
      rw [Option.bind_eq_some] at h
      obtain ⟨d, -, h⟩ := h
      rw [Option.bind_eq_some] at h
      obtain ⟨sd, -, h⟩ := h
      rw [Option.bind_eq_some] at h
      obtain ⟨y3, -, h⟩ := h
      rw [new_unwrap_shape h]

/-- **C10** (witness): the reflection pair `(192, 105)` and `(192, 118)`
on `a = 0, b = 7` over GF(223). -/
theorem add_vertical_reflection_takes_doubling_branch_w :
    FieldPoint.add ⟨⟨192, 223⟩, ⟨105, 223⟩, ⟨0, 223⟩, ⟨7, 223⟩, false⟩
        ⟨⟨192, 223⟩, ⟨118, 223⟩, ⟨0, 223⟩, ⟨7, 223⟩, false⟩ =
      FieldPoint.double ⟨⟨192, 223⟩, ⟨105, 223⟩, ⟨0, 223⟩, ⟨7, 223⟩, false⟩ ∧
    finiteResult
      (FieldPoint.double ⟨⟨192, 223⟩, ⟨105, 223⟩, ⟨0, 223⟩, ⟨7, 223⟩, false⟩) :=
  add_vertical_reflection_takes_doubling_branch
    ⟨⟨192, 223⟩, ⟨105, 223⟩, ⟨0, 223⟩, ⟨7, 223⟩, false⟩
    ⟨⟨192, 223⟩, ⟨118, 223⟩, ⟨0, 223⟩, ⟨7, 223⟩, false⟩
    rfl rfl rfl rfl rfl (by decide) (by decide)

/-! ### Claim C6 — `pow(-1)` produces the multiplicative inverse -/

/-- **C6**: for a canonical nonzero element of GF(p) with `p` prime,
`pow(-1)` (`field_element.rs:14-25`, one Fermat step turning the
exponent into `p - 2`) followed by `mul` (`field_element.rs:201`)
returns exactly the identity `FieldElement::new(1, p)`, because
`a^(p-1) ≡ 1 (mod p)` for `a` not divisible by `p`. -/
theorem mul_by_pow_neg_one_is_identity (p : ℕ) (hp : p.Prime)
    (a : FieldElement) (hpr : a.prime = (p : Int))
    (h0 : 0 ≤ a.num) (hlt : a.num < (p : Int)) (hnz : a.num ≠ 0) :
    (a.pow (-1)).bind (FieldElement.mul a) =
      exUnwrap (FieldElement.new 1 (p : Int)) := by
  obtain ⟨n, ap⟩ := a
  have hap : (p : Int) = ap := hpr.symm
  subst hap
  have hp2 : 2 ≤ p := hp.two_le
  have hppos : (0 : Int) < (p : Int) := by exact_mod_cast hp.pos
  unfold FieldElement.pow modpow
  rw [if_pos (by norm_num : (-1 : Int) < 0)]
  dsimp
  have hexp : -1 + ((p : Int) - 1) = (p : Int) - 2 := by ring
  rw [hexp, if_neg (by push_neg; omega)]
  rw [optSomeBind, exUnwrap_new_some (Int.emod_lt_of_pos _ hppos), optSomeBind]
  have htn : ((p : Int) - 2).toNat = p - 2 := by omega
  rw [htn, mul_eq ⟨n, (p : Int)⟩ ⟨n ^ (p - 2) % (p : Int), (p : Int)⟩ rfl hppos,
    exUnwrap_new_some (by exact_mod_cast hp.one_lt : (1 : Int) < (p : Int))]
  dsimp
  rw [Option.some.injEq, FieldElement.mk.injEq]
  refine ⟨?_, rfl⟩
  have h0n : (0 : Int) ≤ n := h0
  have hltn : n < (p : Int) := hlt
  have hnzn : n ≠ 0 := hnz
  have hnpos : 0 < n := lt_of_le_of_ne h0n (Ne.symm hnzn)
  have hnotdvd : ¬ ((p : Int) ∣ n) := fun hdvd => by
    have h1 : (p : Int) ≤ n := Int.le_of_dvd hnpos hdvd
    omega
  have hprime_int : Prime ((p : Int)) := Nat.prime_iff_prime_int.mp hp
  have hcop : IsCoprime n ((p : Int)) :=
    ((hprime_int.coprime_iff_not_dvd).mpr hnotdvd).symm
  have hfermat : n ^ (p - 1) ≡ 1 [ZMOD (p : Int)] :=
    Int.ModEq.pow_card_sub_one_eq_one hp hcop
  have step1 : n ^ (p - 2) % (p : Int) ≡ n ^ (p - 2) [ZMOD (p : Int)] :=
    Int.emod_emod_of_dvd _ dvd_rfl
  have step3 : n * n ^ (p - 2) = n ^ (p - 1) := by
    rw [← pow_succ']
    congr 1
    omega
  have step4 : n * (n ^ (p - 2) % (p : Int)) ≡ 1 [ZMOD (p : Int)] :=
    (step1.mul_left n).trans (by rw [step3]; exact hfermat)
  have step5 : n * (n ^ (p - 2) % (p : Int)) % (p : Int) = 1 % (p : Int) := step4
  rw [step5]
  exact Int.emod_eq_of_lt (by norm_num) (by exact_mod_cast hp.one_lt)

/-- **C6** (witness): `3 * 3⁻¹ = 1` in GF(7): `pow(-1)` computes
`3^5 mod 7 = 5` and `3 * 5 mod 7 = 1`. -/
theorem mul_by_pow_neg_one_is_identity_w :
    ((⟨3, 7⟩ : FieldElement).pow (-1)).bind (FieldElement.mul ⟨3, 7⟩) =
      exUnwrap (FieldElement.new 1 7) :=
  mul_by_pow_neg_one_is_identity 7 (by norm_num) ⟨3, 7⟩ rfl
    (by decide) (by decide) (by decide)

theorem newUnwrap_onCurve {x3 y3 a b : FieldElement} {r : FieldPoint} {p : Int}
    (h : (FieldPoint.new x3 y3 a b).bind exUnwrap = some r)
    (hx3 : x3.prime = p) (hy3 : y3.prime = p)
    (hap : a.prime = p) (_hbp : b.prime = p) :
    r = ⟨x3, y3, a, b, false⟩ ∧ onCurve r p := by
  have hshape := new_unwrap_shape h
  subst hshape
  refine ⟨rfl, ?_⟩
  rw [Option.bind_eq_some] at h
  obtain ⟨res, hres, hun⟩ := h
  unfold FieldPoint.new at hres
  rw [Option.bind_eq_some] at hres
  obtain ⟨lhs, hlhs, hres⟩ := hres
  rw [Option.bind_eq_some] at hres
  obtain ⟨xc, hxc, hres⟩ := hres
  rw [Option.bind_eq_some] at hres
  obtain ⟨ax, hax, hres⟩ := hres
  rw [Option.bind_eq_some] at hres
  obtain ⟨t, ht, hres⟩ := hres
  rw [Option.bind_eq_some] at hres
  obtain ⟨rhs, hrhs, hres⟩ := hres
  rw [Option.some.injEq] at hres
  subst hres
  by_cases hne : lhs ≠ rhs
  · rw [if_pos hne] at hun
    cases hun
  · push_neg at hne
    obtain ⟨-, hlhs2⟩ := pow_some_of_nonneg (by norm_num) hlhs
    obtain ⟨-, hxc2⟩ := pow_some_of_nonneg (by norm_num) hxc
    obtain ⟨-, hax2⟩ := mul_some hax
    subst hlhs2
    subst hxc2
    subst hax2
    obtain ⟨-, ht2⟩ := add_some ht
    subst ht2
    obtain ⟨-, hrhs2⟩ := add_some hrhs
    subst hrhs2
    rw [FieldElement.mk.injEq] at hne
    obtain ⟨hnum, -⟩ := hne
    dsimp at hnum
    unfold onCurve
    dsimp
    rw [hy3, hx3, hap] at hnum
    rw [hnum, addmod3]

/-! ### Claim C4 — closure: a non-panicking add returns a point of the curve -/

/-- **C4**: for valid curve points over `p` on the same curve, every
non-panicking `add` (`ecc/mod.rs:43-75`) returns either an infinity
point or a finite point satisfying `y² ≡ x³ + a·x + b (mod p)` carrying
the same `a` and `b` as the operands.  The chord and doubling branches
obtain this from the revalidating `FieldPoint::new(...).unwrap()` on the
way out; the identity branches return the other (valid) operand. -/
theorem add_returns_point_on_same_curve (p : Int) (P Q r : FieldPoint)
    (hP : validPoint P p) (hQ : validPoint Q p)
    (ha : P.a = Q.a) (hb : P.b = Q.b)
    (h : FieldPoint.add P Q = some r) :
    r.inf = true ∨ (onCurve r p ∧ r.a = P.a ∧ r.b = P.b) := by
  unfold validPoint sharesPrime at hP hQ
  unfold FieldPoint.add at h
  rw [if_neg (by push_neg; exact ⟨ha, hb⟩)] at h
  by_cases hPinf : P.inf = true
  · rw [if_pos hPinf, Option.some.injEq] at h
    subst h
    rcases hQ with hQi | ⟨-, hQc⟩
    · exact Or.inl hQi
    · exact Or.inr ⟨hQc, ha.symm, hb.symm⟩
  · rw [if_neg hPinf] at h
    rcases hP with hPi | ⟨⟨hPx, hPy, hPa, hPb⟩, hPc⟩
    · exact absurd hPi hPinf
    by_cases hQinf : Q.inf = true
    · rw [if_pos hQinf, Option.some.injEq] at h
      subst h
      exact Or.inr ⟨hPc, rfl, rfl⟩
    · rw [if_neg hQinf] at h
      rcases hQ with hQi | ⟨⟨hQx, hQy, hQa, hQb⟩, -⟩
      · exact absurd hQi hQinf
      by_cases hxx : P.x ≠ Q.x
      · rw [if_pos hxx] at h
        unfold FieldPoint.chord at h
        rw [Option.bind_eq_some] at h
        obtain ⟨dy, hdy, h⟩ := h
        obtain ⟨-, hdy2⟩ := sub_some hdy
        subst hdy2
        rw [Option.bind_eq_some] at h
        obtain ⟨dx, hdx, h⟩ := h
        obtain ⟨-, hdx2⟩ := sub_some hdx
        subst hdx2
        rw [Option.bind_eq_some] at h
        obtain ⟨slope, hslope, h⟩ := h
        obtain ⟨-, hslope2⟩ := div_field_some hslope
        subst hslope2
        rw [Option.bind_eq_some] at h
        obtain ⟨s2, hs2, h⟩ := h
        obtain ⟨-, hs22⟩ := pow_some_of_nonneg (by norm_num) hs2
        subst hs22
        rw [Option.bind_eq_some] at h
        obtain ⟨t, ht, h⟩ := h
        obtain ⟨-, ht2⟩ := sub_some ht
        subst ht2
        rw [Option.bind_eq_some] at h
        obtain ⟨x3, hx3, h⟩ := h
        obtain ⟨-, hx32⟩ := sub_some hx3
        subst hx32
        rw [Option.bind_eq_some] at h
        obtain ⟨d, hd, h⟩ := h
        obtain ⟨-, hd2⟩ := sub_some hd
        subst hd2
        rw [Option.bind_eq_some] at h
        obtain ⟨sd, hsd, h⟩ := h
        obtain ⟨-, hsd2⟩ := mul_some hsd
        subst hsd2
        rw [Option.bind_eq_some] at h
        obtain ⟨y3, hy3, h⟩ := h
        obtain ⟨-, hy32⟩ := sub_some hy3
        subst hy32
        obtain ⟨hr, hcurve⟩ := newUnwrap_onCurve h hQy hQy hPa hPb
        subst hr
        exact Or.inr ⟨hcurve, rfl, rfl⟩
      · rw [if_neg hxx] at h
        by_cases hy0 : P.y.num = 0
        · rw [if_pos hy0,
            show exUnwrap (FieldPoint.new_inf P.a P.b) =
              some ⟨⟨0, 1⟩, ⟨0, 1⟩, P.a, P.b, true⟩ from rfl,
            Option.some.injEq] at h
          subst h
          exact Or.inl rfl
        · rw [if_neg hy0] at h
          unfold FieldPoint.double at h
          rw [Option.bind_eq_some] at h
          obtain ⟨xsq, hxsq, h⟩ := h
          obtain ⟨-, hxsq2⟩ := pow_some_of_nonneg (by norm_num) hxsq
          subst hxsq2
          rw [Option.bind_eq_some] at h
          obtain ⟨t1, ht1, h⟩ := h
          obtain ⟨-, ht12⟩ := mulInt_some ht1
          subst ht12
          rw [Option.bind_eq_some] at h
          obtain ⟨numr, hnumr, h⟩ := h
          obtain ⟨-, hnumr2⟩ := add_some hnumr
          subst hnumr2
          rw [Option.bind_eq_some] at h
          obtain ⟨den, hden, h⟩ := h
          obtain ⟨-, hden2⟩ := mulInt_some hden
          subst hden2
          rw [Option.bind_eq_some] at h
          obtain ⟨slope, hslope, h⟩ := h
          obtain ⟨-, hslope2⟩ := div_field_some hslope
          subst hslope2
          rw [Option.bind_eq_some] at h
          obtain ⟨s2, hs2, h⟩ := h
          obtain ⟨-, hs22⟩ := pow_some_of_nonneg (by norm_num) hs2
          subst hs22
          rw [Option.bind_eq_some] at h
          obtain ⟨tx, htx, h⟩ := h
          obtain ⟨-, htx2⟩ := mulInt_some htx
          subst htx2
          rw [Option.bind_eq_some] at h
          obtain ⟨x3, hx3, h⟩ := h
          obtain ⟨-, hx32⟩ := sub_some hx3
          subst hx32
          rw [Option.bind_eq_some] at h
          obtain ⟨d, hd, h⟩ := h
          obtain ⟨-, hd2⟩ := sub_some hd
          subst hd2
          rw [Option.bind_eq_some] at h
          obtain ⟨sd, hsd, h⟩ := h
          obtain ⟨-, hsd2⟩ := mul_some hsd
          subst hsd2
          rw [Option.bind_eq_some] at h
          obtain ⟨y3, hy3, h⟩ := h
          obtain ⟨-, hy32⟩ := sub_some hy3
          subst hy32
          obtain ⟨hr, hcurve⟩ := newUnwrap_onCurve h hPx hPx hPa hPb
          subst hr
          exact Or.inr ⟨hcurve, rfl, rfl⟩

/-- **C4** (witness): adding the infinity point of the curve
`a = 0, b = 7` over GF(223) to the on-curve point `(192, 105)`. -/
theorem add_returns_point_on_same_curve_w :
    (⟨⟨192, 223⟩, ⟨105, 223⟩, ⟨0, 223⟩, ⟨7, 223⟩, false⟩ : FieldPoint).inf = true ∨
      (onCurve ⟨⟨192, 223⟩, ⟨105, 223⟩, ⟨0, 223⟩, ⟨7, 223⟩, false⟩ 223 ∧
        (⟨⟨192, 223⟩, ⟨105, 223⟩, ⟨0, 223⟩, ⟨7, 223⟩, false⟩ : FieldPoint).a = ⟨0, 223⟩ ∧
        (⟨⟨192, 223⟩, ⟨105, 223⟩, ⟨0, 223⟩, ⟨7, 223⟩, false⟩ : FieldPoint).b = ⟨7, 223⟩) :=
  add_returns_point_on_same_curve 223
    ⟨⟨0, 1⟩, ⟨0, 1⟩, ⟨0, 223⟩, ⟨7, 223⟩, true⟩
    ⟨⟨192, 223⟩, ⟨105, 223⟩, ⟨0, 223⟩, ⟨7, 223⟩, false⟩
    ⟨⟨192, 223⟩, ⟨105, 223⟩, ⟨0, 223⟩, ⟨7, 223⟩, false⟩
    (Or.inl rfl) (by unfold validPoint sharesPrime onCurve; right; exact ⟨⟨rfl, rfl, rfl, rfl⟩, by decide⟩)
    rfl rfl rfl

/-! ### Helpers for claim C8: canonical representatives via `ZMod p` -/

theorem castmod (p : ℕ) (a : Int) :
    ((a % (p : Int) : Int) : ZMod p) = (a : ZMod p) := by
  rw [Int.emod_def]
  push_cast
  rw [ZMod.natCast_self]
  ring

theorem canon_inj (p : ℕ) (a b : Int) (ha0 : 0 ≤ a) (hap : a < (p : Int))
    (hb0 : 0 ≤ b) (hbp : b < (p : Int))
    (h : (a : ZMod p) = (b : ZMod p)) : a = b := by
  rw [ZMod.intCast_eq_intCast_iff'] at h
  rwa [Int.emod_eq_of_lt ha0 hap, Int.emod_eq_of_lt hb0 hbp] at h

theorem neg_one_pow_card_sub_one (p : ℕ) (hp : p.Prime) :
    ((-1 : ZMod p)) ^ (p - 1) = 1 := by
  rcases hp.eq_two_or_odd' with h2 | hodd
  · subst h2
    decide
  · exact (Nat.Odd.sub_odd hodd odd_one).neg_one_pow

/-! ### Claim C8 — commutativity of point addition for distinct x -/

/-- **C8**: for finite points of the same curve over a prime modulus
with distinct canonical x coordinates, the chord branch of `add`
(`ecc/mod.rs:60-64`) computes the same slope, `x3` and `y3` from either
side — the sign flips of numerator and denominator cancel and one
Fermat step identifies `slope·(x2−x1)` with `y2−y1` — so
`add(P, Q) == add(Q, P)`. -/
theorem add_commutes_on_distinct_x (p : ℕ) (hp : p.Prime) (P Q : FieldPoint)
    (hPf : P.inf = false) (hQf : Q.inf = false)
    (ha : P.a = Q.a) (hb : P.b = Q.b)
    (hx1 : P.x.prime = (p : Int)) (hy1 : P.y.prime = (p : Int))
    (hx2 : Q.x.prime = (p : Int)) (hy2 : Q.y.prime = (p : Int))
    (hc1 : 0 ≤ P.x.num) (hc2 : P.x.num < (p : Int))
    (hc3 : 0 ≤ Q.x.num) (hc4 : Q.x.num < (p : Int))
    (hne : P.x.num ≠ Q.x.num) :
    FieldPoint.add P Q = FieldPoint.add Q P := by
  obtain ⟨Px, Py, Pa, Pb, Pi⟩ := P
  obtain ⟨Qx, Qy, Qa, Qb, Qi⟩ := Q
  obtain ⟨x1, px1⟩ := Px
  obtain ⟨y1, py1⟩ := Py
  obtain ⟨x2, px2⟩ := Qx
  obtain ⟨y2, py2⟩ := Qy
  have e1 : ((p : Int)) = px1 := hx1.symm
  subst e1
  have e2 : ((p : Int)) = py1 := hy1.symm
  subst e2
  have e3 : ((p : Int)) = px2 := hx2.symm
  subst e3
  have e4 : ((p : Int)) = py2 := hy2.symm
  subst e4
  have ePi : Pi = false := hPf
  subst ePi
  have eQi : Qi = false := hQf
  subst eQi
  have eA : Pa = Qa := ha
  subst eA
  have eB : Pb = Qb := hb
  subst eB
  have hnen : x1 ≠ x2 := hne
  have hb1 : (0 : Int) ≤ x1 := hc1
  have hb2 : x1 < (p : Int) := hc2
  have hb3 : (0 : Int) ≤ x2 := hc3
  have hb4 : x2 < (p : Int) := hc4
  haveI := Fact.mk hp
  have hpz : (0 : Int) < (p : Int) := by exact_mod_cast hp.pos
  have hpne : ((p : Int)) ≠ 0 := ne_of_gt hpz
  have h2 : (2 : Int) ≤ (p : Int) := by exact_mod_cast hp.two_le
  have hk : ((p : Int) - 2).toNat = p - 2 := by omega
  have hvne : ((x2 : ZMod p) - (x1 : ZMod p)) ≠ 0 := by
    intro h0
    have hd0 : x2 - x1 ≠ 0 := sub_ne_zero.mpr (Ne.symm hnen)
    have hcast : ((x2 - x1 : Int) : ZMod p) = 0 := by push_cast; exact h0
    rw [ZMod.intCast_zmod_eq_zero_iff_dvd] at hcast
    have habs : (p : Int) ≤ |x2 - x1| :=
      Int.le_of_dvd (abs_pos.mpr hd0) ((dvd_abs _ _).mpr hcast)
    have hltp : |x2 - x1| < (p : Int) := abs_sub_lt_iff.mpr ⟨by omega, by omega⟩
    linarith
  have hvpow : ((x2 : ZMod p) - (x1 : ZMod p)) ^ (p - 1) = 1 :=
    ZMod.pow_card_sub_one_eq_one hvne
  have hm : ((-1 : ZMod p)) ^ (p - 2) * (-1) = 1 := by
    rw [← pow_succ, show p - 2 + 1 = p - 1 from by omega]
    exact neg_one_pow_card_sub_one p hp
  have hnegp : ((-1 : ZMod p)) ^ (p - 2) = -1 := by
    linear_combination (-1 : ZMod p) * hm
  have hSZ : ((y1 : ZMod p) - (y2 : ZMod p)) * ((x1 : ZMod p) - (x2 : ZMod p)) ^ (p - 2) =
      ((y2 : ZMod p) - (y1 : ZMod p)) * ((x2 : ZMod p) - (x1 : ZMod p)) ^ (p - 2) := by
    have ey : ((y1 : ZMod p) - (y2 : ZMod p)) = -((y2 : ZMod p) - (y1 : ZMod p)) := by ring
    have ex : ((x1 : ZMod p) - (x2 : ZMod p)) = -((x2 : ZMod p) - (x1 : ZMod p)) := by ring
    rw [ey, ex, neg_pow, hnegp]
    ring
  have hkey : ((y2 : ZMod p) - (y1 : ZMod p)) * ((x2 : ZMod p) - (x1 : ZMod p)) ^ (p - 2) *
      ((x2 : ZMod p) - (x1 : ZMod p)) = (y2 : ZMod p) - (y1 : ZMod p) := by
    rw [mul_assoc, ← pow_succ, show p - 2 + 1 = p - 1 from by omega, hvpow, mul_one]
  have hcond : ¬(Pa ≠ Pa ∨ Pb ≠ Pb) := by push_neg; exact ⟨rfl, rfl⟩
  have hx12 : (⟨x1, (p : Int)⟩ : FieldElement) ≠ ⟨x2, (p : Int)⟩ :=
    fun hEq => hnen (congrArg FieldElement.num hEq)
  have hx21 : (⟨x2, (p : Int)⟩ : FieldElement) ≠ ⟨x1, (p : Int)⟩ :=
    fun hEq => hnen (congrArg FieldElement.num hEq).symm
  unfold FieldPoint.add
  rw [if_neg hcond, if_neg hcond, if_neg Bool.false_ne_true,
    if_neg Bool.false_ne_true, if_neg Bool.false_ne_true,
    if_neg Bool.false_ne_true, if_pos hx12, if_pos hx21]
  simp only [FieldPoint.chord, sub_eq, div_field_eq, pow_eq, mul_eq, optSomeBind,
    hpz, h2, hk, Int.toNat_ofNat, show (0 : Int) ≤ 2 from by norm_num]
  congr 1
  congr 1
  congr 1
  case e_num =>
    apply canon_inj p _ _ (Int.emod_nonneg _ hpne) (Int.emod_lt_of_pos _ hpz)
      (Int.emod_nonneg _ hpne) (Int.emod_lt_of_pos _ hpz)
    push_cast [castmod]
    rw [hSZ]
    ring
  case e_y =>
    rw [FieldElement.mk.injEq]
    refine ⟨?_, rfl⟩
    apply canon_inj p _ _ (Int.emod_nonneg _ hpne) (Int.emod_lt_of_pos _ hpz)
      (Int.emod_nonneg _ hpne) (Int.emod_lt_of_pos _ hpz)
    push_cast [castmod]
    rw [hSZ]
    linear_combination (-1 : ZMod p) * hkey

/-- **C8** (witness): the on-curve points `(192, 105)` and `(17, 56)` of
`a = 0, b = 7` over GF(223) add to the same result in either order. -/
theorem add_commutes_on_distinct_x_w :
    FieldPoint.add ⟨⟨192, 223⟩, ⟨105, 223⟩, ⟨0, 223⟩, ⟨7, 223⟩, false⟩
        ⟨⟨17, 223⟩, ⟨56, 223⟩, ⟨0, 223⟩, ⟨7, 223⟩, false⟩ =
      FieldPoint.add ⟨⟨17, 223⟩, ⟨56, 223⟩, ⟨0, 223⟩, ⟨7, 223⟩, false⟩
        ⟨⟨192, 223⟩, ⟨105, 223⟩, ⟨0, 223⟩, ⟨7, 223⟩, false⟩ :=
  add_commutes_on_distinct_x 223 (by norm_num)
    ⟨⟨192, 223⟩, ⟨105, 223⟩, ⟨0, 223⟩, ⟨7, 223⟩, false⟩
    ⟨⟨17, 223⟩, ⟨56, 223⟩, ⟨0, 223⟩, ⟨7, 223⟩, false⟩
    rfl rfl rfl rfl rfl rfl rfl rfl
    (by decide) (by decide) (by decide) (by decide) (by decide)
